import Mathlib

/-!
# Verification of the `fuze` same-host broken-link checker

Shallow embedding of `src/main.rs`.  The two external collaborators named by
the design — the URL-parsing capability (the `url` crate behind
`reqwest::Url`) and the HTML link-extraction capability (the `scraper`
crate) — are modelled: URL parsing by a small concrete parser `MUrl.parse`
capturing scheme/authority splitting, host/port separation, the
domain-vs-IP-host distinction and serialization, and link extraction by an
abstract parameter `hrefsOf : String → List String` giving the raw `href`
attribute values of a document.

Everything else is translated directly from the source: `normalize_url`,
`check_url`, `get_links_from_raw_html`, `format_url` and the crawl loop of
`main`.  Rust panics (`unwrap` on `None`) are modelled as an outer `none` /
dedicated constructors; the `?` operator propagating a `reqwest::Error` out
of `main` is modelled by the `abort`/`err` outcomes.  The nondeterministic
iteration order of `HashSet::drain` is modelled by an explicit enumeration
function `ord` constrained by `validOrd`.
-/

namespace Fuze

/-! ## Model of the external URL-parsing capability

Modelled from the spec: the "external URL-parsing capability" (the `url`
crate).  `MUrl.parse` accepts exactly the strings that have a valid scheme
(`ALPHA *( ALPHA / DIGIT / "+" / "-" / "." ) ":"`); with a following `//` it
splits an authority (terminated by `/`, `?` or `#`) into host and optional
port at the first `:`; without `//` the URL has no host.  `MUrl.domain`
returns the host unless it is an IP literal (all digits and dots, or a
bracketed IPv6 literal), matching `Url::domain()` returning `None` for IP
hosts.  `MUrl.toString` reserializes, giving `http`-style URLs with an empty
path a `/` path as the `url` crate does. -/

def isSchemeChar (c : Char) : Bool :=
  c.isAlphanum || c == '+' || c == '-' || c == '.'

def isAuthorityEnd (c : Char) : Bool :=
  c == '/' || c == '?' || c == '#'

/-- Consume scheme characters up to the first `:`; fails if a non-scheme
character is met first or the list ends without a `:`. -/
def splitSchemeAux : List Char → Option (List Char × List Char)
  | [] => none
  | c :: cs =>
    if c == ':' then some ([], cs)
    else if isSchemeChar c then (splitSchemeAux cs).map (fun p => (c :: p.1, p.2))
    else none

/-- Split `l` into a scheme (nonempty, starting with a letter) and the rest
after the `:`. -/
def splitScheme : List Char → Option (List Char × List Char)
  | [] => none
  | c :: cs =>
    if c.isAlpha then (splitSchemeAux cs).map (fun p => (c :: p.1, p.2))
    else none

structure MUrl where
  scheme : String
  host : Option String
  port : Option String
  path : String
  deriving DecidableEq, Repr

/-- The authority of an absolute URL with `//`: characters before the first
`/`, `?` or `#`. -/
def authorityOf (after : List Char) : List Char :=
  after.takeWhile (fun c => !isAuthorityEnd c)

def pathOf (after : List Char) : List Char :=
  after.dropWhile (fun c => !isAuthorityEnd c)

/-- The host: the authority up to the first `:`. -/
def hostOf (after : List Char) : List Char :=
  (authorityOf after).takeWhile (fun c => !(c == ':'))

/-- The port: what follows the first `:` of the authority, if anything. -/
def portOf (after : List Char) : Option String :=
  match (authorityOf after).dropWhile (fun c => !(c == ':')) with
  | [] => none
  | _ :: t => some ⟨t⟩

/-- The part of parsing after the scheme has been split off. -/
def parseAfterScheme (sc rest : List Char) : Option MUrl :=
  match rest with
  | '/' :: '/' :: after =>
    if hostOf after = [] then none
    else
      some { scheme := ⟨sc⟩, host := some ⟨hostOf after⟩,
             port := portOf after, path := ⟨pathOf after⟩ }
  | _ => some { scheme := ⟨sc⟩, host := none, port := none, path := ⟨rest⟩ }

def parseChars (l : List Char) : Option MUrl :=
  (splitScheme l).bind fun p => parseAfterScheme p.1 p.2

def MUrl.parse (s : String) : Option MUrl := parseChars s.data

/-- `true` on the first character of the string, like Rust's
`str::starts_with` with a one-character pattern. -/
def startsWithChar (c : Char) (s : String) : Bool :=
  match s.data with
  | [] => false
  | d :: _ => d == c

/-- IP-literal hosts: bracketed IPv6, or digits-and-dots IPv4. -/
def isIPHost (h : String) : Bool :=
  startsWithChar '[' h || (h.data ≠ [] && h.data.all fun c => c.isDigit || c == '.')

def MUrl.domain (u : MUrl) : Option String :=
  u.host.bind fun h => if isIPHost h then none else some h

def MUrl.has_host (u : MUrl) : Bool := u.host.isSome

def MUrl.toString (u : MUrl) : String :=
  match u.host with
  | none => u.scheme ++ ":" ++ u.path
  | some h =>
    u.scheme ++ "://" ++ h ++
      (match u.port with | none => "" | some p => ":" ++ p) ++
      (if u.path = "" then "/" else u.path)

/-! ## `normalize_url` (src/main.rs lines 16–34)

Return type `Option (Option String)`: the outer `none` models a panic
(`Url::parse(url).unwrap()` on an unparseable base, or
`base_url.domain().unwrap()` on a domain-less base); `some none` is the
function returning Rust `None`, `some (some s)` is `Some(s)`. -/

def normalize_url (url : String) (path : String) : Option (Option String) :=
  -- If the href attribute is an anchor, we want to ignore it
  if startsWithChar '#' path then some none
  else
    match MUrl.parse url with
    | none => none            -- `Url::parse(url).unwrap()` panics
    | some base_url =>
      match MUrl.parse path with
      | some href =>
        if href.has_host && decide (href.host = base_url.host) then
          some (some href.toString)
        else some none
      | none =>
        match base_url.domain with
        | none => none        -- `base_url.domain().unwrap()` panics
        | some d =>
          if startsWithChar '/' path then
            some (some (base_url.scheme ++ "://" ++ d ++ path))
          else
            some (some (base_url.scheme ++ "://" ++ d ++ "/" ++ path))

/-! ## `check_url` (src/main.rs lines 38–45)

The fetch capability is a parameter `fetch : String → Option (Nat × String)`;
`none` is a transport error (`reqwest::Error`, covering both the request and
the body read), `some (status, body)` a delivered response. -/

def check_url (fetch : String → Option (Nat × String)) (url : String) :
    Option (Nat × Bool × String) :=
  match fetch url with
  | none => none
  | some (status, body) => some (status, status == 200, body)

/-! ## `get_links_from_raw_html` (src/main.rs lines 48–56)

`hrefsOf` models the scraper selecting `a[href]` elements and reading their
`href` attributes.  `collectLinks` is the `filter_map(normalize_url)` pass;
a panic inside `normalize_url` (outer `none`) aborts the whole extraction. -/

def collectLinks (url : String) : List String → Option (List String)
  | [] => some []
  | h :: t =>
    match normalize_url url h with
    | none => none
    | some none => collectLinks url t
    | some (some s) => (collectLinks url t).map (fun r => s :: r)

def get_links_from_raw_html (hrefsOf : String → List String)
    (url html : String) : Option (Finset String) :=
  (collectLinks url (hrefsOf html)).map List.toFinset

/-! ## `format_url` (src/main.rs lines 59–72) -/

inductive FormatResult where
  | exitOne : FormatResult              -- `std::process::exit(1)`
  | panicked : FormatResult             -- `parsed.domain().unwrap()` panics
  | ok : String → FormatResult
  deriving DecidableEq, Repr

def format_url (url : String) : FormatResult :=
  match MUrl.parse url with
  | none => .exitOne
  | some parsed =>
    match parsed.domain with
    | none => .panicked
    | some d => .ok (parsed.scheme ++ "://" ++ d ++ "/")

/-! ## The crawl loop of `main` (src/main.rs lines 74–124)

`fetched` is an instrumentation log recording every URL on which a fetch was
attempted, in order; the source performs a fetch exactly where the log is
appended.  `ord` enumerates a `HashSet` in the arbitrary order produced by
`clone().drain()`; `validOrd` says it is a genuine enumeration. -/

structure CrawlState where
  visited : Finset String
  broken_link : Finset String
  to_visit : Finset String
  fetched : List String
  deriving DecidableEq

inductive Flow where
  | cont : CrawlState → Flow
  | abort : CrawlState → Flow           -- `check_url(&url).await?` returned Err
  | crashed : CrawlState → Flow         -- panic inside link extraction
  deriving DecidableEq

/-- One iteration of the inner `for` loop (src/main.rs lines 90–111). -/
def processUrl (fetch : String → Option (Nat × String))
    (hrefsOf : String → List String) (st : CrawlState) (url : String) : Flow :=
  match check_url fetch url with
  | none => .abort { st with fetched := st.fetched ++ [url] }
  | some (_status, is_ok, html) =>
    let visited := insert url st.visited
    match get_links_from_raw_html hrefsOf url html with
    | none => .crashed { st with visited := visited, fetched := st.fetched ++ [url] }
    | some pageLinks =>
      let links := pageLinks \ visited
      .cont { visited := visited
            , broken_link := if is_ok then st.broken_link else insert url st.broken_link
            , to_visit := links          -- `to_visit = links;` — replaced, not unioned
            , fetched := st.fetched ++ [url] }

/-- The inner `for` loop over the drained snapshot of `to_visit`. -/
def processRound (fetch : String → Option (Nat × String))
    (hrefsOf : String → List String) : CrawlState → List String → Flow
  | st, [] => .cont st
  | st, url :: rest =>
    match processUrl fetch hrefsOf st url with
    | .cont st' => processRound fetch hrefsOf st' rest
    | .abort st' => .abort st'
    | .crashed st' => .crashed st'

inductive RunOutcome where
  | ok : CrawlState → RunOutcome        -- the `while` loop exited normally
  | err : CrawlState → RunOutcome       -- `main` returned `Err(_)` (transport)
  | crashed : CrawlState → RunOutcome   -- a panic ended the process
  | outOfFuel : CrawlState → RunOutcome -- still running after `fuel` rounds
  deriving DecidableEq

def RunOutcome.state : RunOutcome → CrawlState
  | .ok st => st
  | .err st => st
  | .crashed st => st
  | .outOfFuel st => st

/-- The `while !to_visit.is_empty()` loop, fuel-indexed by rounds: with fuel
`n` the outcome is `outOfFuel` exactly when the loop is still running after
`n` rounds, so fuel-indexed results expose every round boundary of the run. -/
def crawl (fetch : String → Option (Nat × String))
    (hrefsOf : String → List String) (ord : Finset String → List String) :
    Nat → CrawlState → RunOutcome
  | 0, st => if st.to_visit = ∅ then .ok st else .outOfFuel st
  | fuel + 1, st =>
    if st.to_visit = ∅ then .ok st
    else
      match processRound fetch hrefsOf st (ord st.to_visit) with
      | .cont st' => crawl fetch hrefsOf ord fuel st'
      | .abort st' => .err st'
      | .crashed st' => .crashed st'

def initState (url : String) : CrawlState :=
  { visited := ∅, broken_link := ∅, to_visit := {url}, fetched := [] }

/-- `ord` is a genuine enumeration of each set, as `HashSet::drain` is. -/
def validOrd (ord : Finset String → List String) : Prop :=
  ∀ s : Finset String, (ord s).Nodup ∧ (ord s).toFinset = s

inductive RunResult where
  | configError : RunResult             -- exit(1) from `format_url`
  | panicked : RunResult                -- panic inside `format_url`
  | run : RunOutcome → RunResult
  deriving DecidableEq

/-- `main`: format the seed, seed the frontier, run the loop. -/
def mainRun (fetch : String → Option (Nat × String))
    (hrefsOf : String → List String) (ord : Finset String → List String)
    (fuel : Nat) (arg : String) : RunResult :=
  match format_url arg with
  | .exitOne => .configError
  | .panicked => .panicked
  | .ok url => .run (crawl fetch hrefsOf ord fuel (initState url))

/-! ## Derived predicates and fixtures used by the verification -/

/-- Wellformedness facts every `parseChars` result satisfies. -/
structure UrlWF (u : MUrl) : Prop where
  scheme_form : ∃ c t, u.scheme.data = c :: t ∧ c.isAlpha = true
  scheme_chars : ∀ c ∈ u.scheme.data, isSchemeChar c = true
  host_ne : ∀ hs, u.host = some hs → hs.data ≠ []
  host_chars : ∀ hs, u.host = some hs →
    ∀ c ∈ hs.data, isAuthorityEnd c = false ∧ (c == ':') = false
  port_chars : ∀ pt, u.port = some pt → ∀ c ∈ pt.data, isAuthorityEnd c = false
  path_form : u.host.isSome = true →
    u.path.data = [] ∨ ∃ c t, u.path.data = c :: t ∧ isAuthorityEnd c = true

/-- The invariant behind "no URL is fetched twice": the fetch log is
duplicate-free and mirrors Visited, and the frontier avoids Visited. -/
def InvC4 (st : CrawlState) : Prop :=
  st.fetched.Nodup ∧ st.fetched.toFinset = st.visited ∧
    Disjoint st.to_visit st.visited

/-- `s` parses as a URL whose host is exactly `h`. -/
def hostOk (h s : String) : Prop := (MUrl.parse s).bind MUrl.host = some h

instance (h s : String) : Decidable (hostOk h s) :=
  inferInstanceAs (Decidable (_ = _))

/-- Host-scoping invariant: every URL the engine holds parses with host `h`. -/
def InvHost (h : String) (st : CrawlState) : Prop :=
  (∀ x ∈ st.to_visit, hostOk h x) ∧ (∀ x ∈ st.visited, hostOk h x) ∧
    (∀ x ∈ st.broken_link, hostOk h x) ∧ (∀ x ∈ st.fetched, hostOk h x)

/-- A concrete enumeration order (lexicographic, by insertion sort so the
kernel can evaluate it), one legal behavior of `HashSet::drain`. -/
def sortOrd (s : Finset String) : List String :=
  Quot.liftOn s.val (fun l => List.insertionSort (· ≤ ·) l)
    (fun l₁ l₂ hp => List.eq_of_perm_of_sorted
      ((List.perm_insertionSort _ l₁).trans
        (hp.trans (List.perm_insertionSort _ l₂).symm))
      (List.sorted_insertionSort _ l₁) (List.sorted_insertionSort _ l₂))

/-! ## List and parser lemmas -/

theorem mem_takeWhile_mem {p : Char → Bool} :
    ∀ {l : List Char} {a : Char}, a ∈ l.takeWhile p → a ∈ l := by
  intro l
  induction l with
  | nil => intro a ha; simp [List.takeWhile] at ha
  | cons c t ih =>
    intro a ha
    by_cases hc : p c
    · rw [List.takeWhile_cons, if_pos hc] at ha
      rcases List.mem_cons.1 ha with rfl | ha
      · exact List.mem_cons_self _ _
      · exact List.mem_cons_of_mem _ (ih ha)
    · rw [List.takeWhile_cons, if_neg hc] at ha
      simp at ha

theorem mem_dropWhile_mem {p : Char → Bool} :
    ∀ {l : List Char} {a : Char}, a ∈ l.dropWhile p → a ∈ l := by
  intro l
  induction l with
  | nil => intro a ha; simp [List.dropWhile] at ha
  | cons c t ih =>
    intro a ha
    by_cases hc : p c
    · rw [List.dropWhile_cons, if_pos hc] at ha
      exact List.mem_cons_of_mem _ (ih ha)
    · rwa [List.dropWhile_cons, if_neg hc] at ha

theorem dropWhile_head_false {p : Char → Bool} :
    ∀ {l : List Char} {c : Char} {t : List Char},
      l.dropWhile p = c :: t → p c = false := by
  intro l
  induction l with
  | nil => intro c t h; simp [List.dropWhile] at h
  | cons a l ih =>
    intro c t h
    by_cases ha : p a
    · rw [List.dropWhile_cons, if_pos ha] at h; exact ih h
    · rw [List.dropWhile_cons, if_neg ha] at h
      cases h; simpa using ha

theorem takeWhile_append_all {p : Char → Bool} :
    ∀ {l₁ : List Char} (l₂ : List Char), (∀ c ∈ l₁, p c = true) →
      (l₁ ++ l₂).takeWhile p = l₁ ++ l₂.takeWhile p := by
  intro l₁
  induction l₁ with
  | nil => intro l₂ _; rfl
  | cons c t ih =>
    intro l₂ hall
    rw [List.cons_append, List.takeWhile_cons,
      if_pos (hall c (List.mem_cons_self _ _)), ih l₂ (fun x hx => hall x (List.mem_cons_of_mem _ hx)),
      List.cons_append]

theorem dropWhile_append_all {p : Char → Bool} :
    ∀ {l₁ : List Char} (l₂ : List Char), (∀ c ∈ l₁, p c = true) →
      (l₁ ++ l₂).dropWhile p = l₂.dropWhile p := by
  intro l₁
  induction l₁ with
  | nil => intro l₂ _; rfl
  | cons c t ih =>
    intro l₂ hall
    rw [List.cons_append, List.dropWhile_cons,
      if_pos (hall c (List.mem_cons_self _ _))]
    exact ih l₂ (fun x hx => hall x (List.mem_cons_of_mem _ hx))

theorem isSchemeChar_ne_colon {c : Char} (h : isSchemeChar c = true) :
    (c == ':') = false := by
  rcases eq_or_ne c ':' with rfl | hne
  · exact absurd h (by decide)
  · exact beq_eq_false_iff_ne.2 hne

theorem splitSchemeAux_sound :
    ∀ {l sc r : List Char}, splitSchemeAux l = some (sc, r) →
      (∀ c ∈ sc, isSchemeChar c = true) ∧ l = sc ++ ':' :: r := by
  intro l
  induction l with
  | nil => intro sc r h; simp [splitSchemeAux] at h
  | cons c cs ih =>
    intro sc r h
    by_cases hc : c == ':'
    · rw [splitSchemeAux, if_pos hc] at h
      obtain ⟨rfl, rfl⟩ := Prod.mk.injEq .. ▸ (Option.some.injEq .. ▸ h :)
      exact ⟨by simp, by simp [eq_of_beq hc]⟩
    · by_cases hsc : isSchemeChar c
      · rw [splitSchemeAux, if_neg hc, if_pos hsc] at h
        rcases Option.map_eq_some'.1 h with ⟨⟨sc', r'⟩, hrec, heq⟩
        obtain ⟨hall, rfl⟩ := ih hrec
        cases heq
        refine ⟨?_, by simp⟩
        intro x hx
        rcases List.mem_cons.1 hx with rfl | hx
        · exact hsc
        · exact hall x hx
      · rw [splitSchemeAux, if_neg hc, if_neg hsc] at h
        cases h

theorem splitSchemeAux_rebuild :
    ∀ {sc : List Char} (r : List Char), (∀ c ∈ sc, isSchemeChar c = true) →
      splitSchemeAux (sc ++ ':' :: r) = some (sc, r) := by
  intro sc
  induction sc with
  | nil => intro r _; simp [splitSchemeAux]
  | cons c t ih =>
    intro r hall
    have hc := hall c (List.mem_cons_self _ _)
    rw [List.cons_append, splitSchemeAux, if_neg (by simp [isSchemeChar_ne_colon hc]),
      if_pos hc, ih r (fun x hx => hall x (List.mem_cons_of_mem _ hx))]
    rfl

theorem splitScheme_sound {l sc r : List Char} (h : splitScheme l = some (sc, r)) :
    (∃ c t, sc = c :: t ∧ c.isAlpha = true) ∧
      (∀ c ∈ sc, isSchemeChar c = true) ∧ l = sc ++ ':' :: r := by
  cases l with
  | nil => simp [splitScheme] at h
  | cons c cs =>
    by_cases ha : c.isAlpha
    · rw [splitScheme, if_pos ha] at h
      rcases Option.map_eq_some'.1 h with ⟨⟨sc', r'⟩, hrec, heq⟩
      obtain ⟨hall, rfl⟩ := splitSchemeAux_sound hrec
      cases heq
      refine ⟨⟨c, sc', rfl, ha⟩, ?_, by simp⟩
      intro x hx
      rcases List.mem_cons.1 hx with rfl | hx
      · simp [isSchemeChar, Char.isAlphanum, ha]
      · exact hall x hx
    · rw [splitScheme, if_neg ha] at h
      cases h

theorem splitScheme_rebuild {sc : List Char} {c : Char} {t : List Char}
    (hsc : sc = c :: t) (ha : c.isAlpha = true)
    (hall : ∀ x ∈ sc, isSchemeChar x = true) (r : List Char) :
    splitScheme (sc ++ ':' :: r) = some (sc, r) := by
  subst hsc
  rw [List.cons_append, splitScheme, if_pos ha,
    splitSchemeAux_rebuild r (fun x hx => hall x (List.mem_cons_of_mem _ hx))]
  rfl

theorem mem_hostOf {after : List Char} {c : Char} (hc : c ∈ hostOf after) :
    isAuthorityEnd c = false ∧ (c == ':') = false := by
  have h1 : (c == ':') = false := by
    have := List.mem_takeWhile_imp hc
    simpa using this
  have hmem : c ∈ authorityOf after := mem_takeWhile_mem hc
  have h2 : isAuthorityEnd c = false := by
    have := List.mem_takeWhile_imp hmem
    simpa using this
  exact ⟨h2, h1⟩

theorem mem_portOf {after : List Char} {pt : String} (hpt : portOf after = some pt)
    {c : Char} (hc : c ∈ pt.data) : isAuthorityEnd c = false := by
  unfold portOf at hpt
  cases hdrop : (authorityOf after).dropWhile (fun c => !(c == ':')) with
  | nil => rw [hdrop] at hpt; cases hpt
  | cons p0 t =>
    rw [hdrop] at hpt
    cases hpt
    have hmem : c ∈ (authorityOf after).dropWhile (fun c => !(c == ':')) := by
      rw [hdrop]; exact List.mem_cons_of_mem _ hc
    have hmem2 : c ∈ authorityOf after := mem_dropWhile_mem hmem
    have := List.mem_takeWhile_imp hmem2
    simpa using this

theorem pathOf_form (after : List Char) :
    pathOf after = [] ∨ ∃ c t, pathOf after = c :: t ∧ isAuthorityEnd c = true := by
  cases hdrop : pathOf after with
  | nil => exact Or.inl rfl
  | cons c t =>
    right
    refine ⟨c, t, rfl, ?_⟩
    have := dropWhile_head_false (p := fun c => !isAuthorityEnd c) (hdrop :)
    simpa using this

theorem parseAfterScheme_wf {sc rest : List Char} {u : MUrl}
    (hform : ∃ c t, sc = c :: t ∧ c.isAlpha = true)
    (hchars : ∀ c ∈ sc, isSchemeChar c = true)
    (h : parseAfterScheme sc rest = some u) : UrlWF u := by
  unfold parseAfterScheme at h
  split at h
  · next after =>
    split at h
    · cases h
    · next hhost =>
      cases h
      constructor
      · exact hform
      · exact hchars
      · intro hs hhs
        cases hhs
        simpa using hhost
      · intro hs hhs c hc
        cases hhs
        exact mem_hostOf hc
      · intro pt hpt c hc
        exact mem_portOf hpt hc
      · intro _
        exact pathOf_form after
  · cases h
    exact ⟨hform, hchars, by simp, by simp, by simp, by simp⟩

theorem parseChars_wf {l : List Char} {u : MUrl} (h : parseChars l = some u) :
    UrlWF u := by
  unfold parseChars at h
  cases hs : splitScheme l with
  | none => rw [hs] at h; cases h
  | some scr =>
    obtain ⟨sc, rest⟩ := scr
    rw [hs, Option.some_bind] at h
    obtain ⟨hform, hchars, rfl⟩ := splitScheme_sound hs
    exact parseAfterScheme_wf hform hchars h

theorem authorityOf_append {auth p : List Char}
    (hauth : ∀ c ∈ auth, isAuthorityEnd c = false)
    (hp : p = [] ∨ ∃ c t, p = c :: t ∧ isAuthorityEnd c = true) :
    authorityOf (auth ++ p) = auth ∧ pathOf (auth ++ p) = p := by
  have hall : ∀ c ∈ auth, (fun c => !isAuthorityEnd c) c = true := by
    intro c hc; simp [hauth c hc]
  constructor
  · rw [authorityOf, takeWhile_append_all p hall]
    rcases hp with rfl | ⟨c, t, rfl, hc⟩
    · simp
    · rw [List.takeWhile_cons, if_neg (by simp [hc])]
      simp
  · rw [pathOf, dropWhile_append_all p hall]
    rcases hp with rfl | ⟨c, t, rfl, hc⟩
    · rfl
    · rw [List.dropWhile_cons, if_neg (by simp [hc])]

theorem parseChars_rebuild {sc : List Char} {c0 : Char} {t0 : List Char}
    (hsc0 : sc = c0 :: t0) (ha0 : c0.isAlpha = true)
    (hsc : ∀ c ∈ sc, isSchemeChar c = true)
    {auth p : List Char}
    (hauth : ∀ c ∈ auth, isAuthorityEnd c = false)
    (hhost : auth.takeWhile (fun c => !(c == ':')) ≠ [])
    (hp : p = [] ∨ ∃ c t, p = c :: t ∧ isAuthorityEnd c = true) :
    parseChars (sc ++ ':' :: '/' :: '/' :: (auth ++ p)) =
      some { scheme := ⟨sc⟩,
             host := some ⟨auth.takeWhile (fun c => !(c == ':'))⟩,
             port := match auth.dropWhile (fun c => !(c == ':')) with
                     | [] => none
                     | _ :: t => some ⟨t⟩,
             path := ⟨p⟩ } := by
  obtain ⟨hA, hP⟩ := authorityOf_append hauth hp
  rw [parseChars, splitScheme_rebuild hsc0 ha0 hsc, Option.some_bind, parseAfterScheme,
    hostOf, portOf, hA, hP, if_neg hhost]

/-- Parsing a string whose character data is `scheme ++ "://" ++ host ++ path`
for a wellformed base recovers exactly these components (no port). -/
theorem parse_of_data {bu : MUrl} (hwf : UrlWF bu) {h : String}
    (hh : bu.host = some h) {s : String} {q : List Char}
    (hs : s.data = bu.scheme.data ++ ':' :: '/' :: '/' :: (h.data ++ q))
    (hp : q = [] ∨ ∃ c t, q = c :: t ∧ isAuthorityEnd c = true) :
    MUrl.parse s =
      some { scheme := bu.scheme, host := some h, port := none, path := ⟨q⟩ } := by
  obtain ⟨c0, t0, hsc0, ha0⟩ := hwf.scheme_form
  have hchars := hwf.host_chars h hh
  have hne := hwf.host_ne h hh
  have htake : h.data.takeWhile (fun c => !(c == ':')) = h.data :=
    List.takeWhile_eq_self_iff.2 (fun c hc => by simp [(hchars c hc).2])
  have hdrop : h.data.dropWhile (fun c => !(c == ':')) = [] :=
    List.dropWhile_eq_nil_iff.2 (fun c hc => by simp [(hchars c hc).2])
  rw [MUrl.parse, hs,
    parseChars_rebuild hsc0 ha0 hwf.scheme_chars (fun c hc => (hchars c hc).1)
      (by rw [htake]; exact hne) hp]
  rw [htake, hdrop]

/-- Same, with a port between host and path. -/
theorem parse_of_data_port {bu : MUrl} (hwf : UrlWF bu) {h pt : String}
    (hh : bu.host = some h) (hpt : bu.port = some pt) {s : String} {q : List Char}
    (hs : s.data = bu.scheme.data ++ ':' :: '/' :: '/' ::
      ((h.data ++ ':' :: pt.data) ++ q))
    (hp : q = [] ∨ ∃ c t, q = c :: t ∧ isAuthorityEnd c = true) :
    MUrl.parse s =
      some { scheme := bu.scheme, host := some h, port := some pt, path := ⟨q⟩ } := by
  obtain ⟨c0, t0, hsc0, ha0⟩ := hwf.scheme_form
  have hchars := hwf.host_chars h hh
  have hne := hwf.host_ne h hh
  have hptchars := hwf.port_chars pt hpt
  have hhall : ∀ c ∈ h.data, (fun c => !(c == ':')) c = true := by
    intro c hc; simp [(hchars c hc).2]
  have htake : (h.data ++ ':' :: pt.data).takeWhile (fun c => !(c == ':')) = h.data := by
    rw [takeWhile_append_all _ hhall, List.takeWhile_cons, if_neg (by simp)]
    simp
  have hdrop : (h.data ++ ':' :: pt.data).dropWhile (fun c => !(c == ':'))
      = ':' :: pt.data := by
    rw [dropWhile_append_all _ hhall, List.dropWhile_cons, if_neg (by simp)]
  have hauth : ∀ c ∈ h.data ++ ':' :: pt.data, isAuthorityEnd c = false := by
    intro c hc
    rcases List.mem_append.1 hc with hc | hc
    · exact (hchars c hc).1
    · rcases List.mem_cons.1 hc with rfl | hc
      · decide
      · exact hptchars c hc
  rw [MUrl.parse, hs,
    parseChars_rebuild hsc0 ha0 hwf.scheme_chars hauth (by rw [htake]; exact hne) hp]
  rw [htake, hdrop]

theorem startsWithChar_cons {c : Char} {s : String} (h : startsWithChar c s = true) :
    ∃ t, s.data = c :: t := by
  unfold startsWithChar at h
  cases hd : s.data with
  | nil => rw [hd] at h; cases h
  | cons d t =>
    rw [hd] at h
    exact ⟨t, by rw [eq_of_beq h]⟩

/-- Reserializing a parsed URL with a host parses back to the same scheme,
host and port (with an empty path printed as `/`). -/
theorem parse_toString {u : MUrl} (hwf : UrlWF u) {h : String} (hh : u.host = some h) :
    MUrl.parse u.toString =
      some { scheme := u.scheme, host := some h, port := u.port,
             path := if u.path = "" then "/" else u.path } := by
  have hp : (if u.path = "" then ("/" : String) else u.path).data = [] ∨
      ∃ c t, (if u.path = "" then ("/" : String) else u.path).data = c :: t ∧
        isAuthorityEnd c = true := by
    by_cases hpe : u.path = ""
    · rw [if_pos hpe]
      exact Or.inr ⟨'/', [], rfl, by decide⟩
    · rw [if_neg hpe]
      rcases hwf.path_form (by rw [hh]; rfl) with hnil | hform
      · exact absurd (show u.path = "" by apply String.ext; rw [hnil]) hpe
      · exact Or.inr hform
  rw [MUrl.toString, hh]
  cases hport : u.port with
  | none =>
    have := parse_of_data hwf hh
      (s := u.scheme ++ "://" ++ h ++ "" ++ (if u.path = "" then "/" else u.path))
      (q := (if u.path = "" then ("/" : String) else u.path).data)
      (by simp [String.data_append]) hp
    rw [this]
  | some pt =>
    have := parse_of_data_port hwf hh hport
      (s := u.scheme ++ "://" ++ h ++ (":" ++ pt) ++ (if u.path = "" then "/" else u.path))
      (q := (if u.path = "" then ("/" : String) else u.path).data)
      (by simp [String.data_append]) hp
    rw [this]

/-! ## Lemmas about `normalize_url` and link extraction -/

/-- A string that parses as an absolute URL cannot start with `#`. -/
theorem parse_some_not_hash {href : String} {hu : MUrl}
    (hh : MUrl.parse href = some hu) : startsWithChar '#' href = false := by
  unfold MUrl.parse parseChars at hh
  cases hs : splitScheme href.data with
  | none => rw [hs] at hh; cases hh
  | some p =>
    obtain ⟨⟨c0, t0, hsc, ha⟩, _, hdata⟩ := splitScheme_sound hs
    unfold startsWithChar
    rw [hdata, hsc]
    simp only [List.cons_append]
    have hne : c0 ≠ '#' := fun hEq => by
      rw [hEq] at ha; exact absurd ha (by decide)
    simp [hne]

/-- `normalize_url` cannot panic when the base parses and has a domain. -/
theorem normalize_url_ne_none {url : String} {bu : MUrl} {d : String}
    (hb : MUrl.parse url = some bu) (hd : bu.domain = some d) (href : String) :
    normalize_url url href ≠ none := by
  by_cases ha : startsWithChar '#' href = true
  · simp [normalize_url, ha]
  · have ha' : startsWithChar '#' href = false := by simpa using ha
    cases hp : MUrl.parse href with
    | some hu =>
      simp only [normalize_url, ha', Bool.false_eq_true, if_false, hb, hp]
      split <;> simp
    | none =>
      simp only [normalize_url, ha', Bool.false_eq_true, if_false, hb, hp, hd]
      split <;> simp

/-- Every `Some` result of `normalize_url` parses with the base's host,
provided the base's host is a (non-IP) domain. -/
theorem normalize_url_host {url href out : String} {bu : MUrl} {h : String}
    (hb : MUrl.parse url = some bu) (hh : bu.host = some h) (hip : isIPHost h = false)
    (hn : normalize_url url href = some (some out)) :
    (MUrl.parse out).bind MUrl.host = some h := by
  have hwf : UrlWF bu := parseChars_wf hb
  have hd : bu.domain = some h := by simp [MUrl.domain, hh, hip]
  by_cases ha : startsWithChar '#' href = true
  · simp [normalize_url, ha] at hn
  · have ha' : startsWithChar '#' href = false := by simpa using ha
    cases hp : MUrl.parse href with
    | some hu =>
      simp only [normalize_url, ha', Bool.false_eq_true, if_false, hb, hp] at hn
      split at hn
      · next hcond =>
        have hout : out = hu.toString := by simpa using hn.symm
        have hwfu : UrlWF hu := parseChars_wf hp
        have hhu : hu.host = some h := by
          rw [Bool.and_eq_true] at hcond
          rw [of_decide_eq_true hcond.2, hh]
        rw [hout, parse_toString hwfu hhu]
        rfl
      · simp at hn
    | none =>
      simp only [normalize_url, ha', Bool.false_eq_true, if_false, hb, hp, hd] at hn
      split at hn
      · next hsl =>
        obtain ⟨t, hdata⟩ := startsWithChar_cons hsl
        have hout : out = bu.scheme ++ "://" ++ h ++ href := by simpa using hn.symm
        have hps := parse_of_data hwf hh (s := bu.scheme ++ "://" ++ h ++ href)
          (q := href.data) (by simp [String.data_append])
          (Or.inr ⟨'/', t, hdata, by decide⟩)
        rw [hout, hps]
        rfl
      · have hout : out = bu.scheme ++ "://" ++ h ++ "/" ++ href := by simpa using hn.symm
        have hps := parse_of_data hwf hh (s := bu.scheme ++ "://" ++ h ++ "/" ++ href)
          (q := '/' :: href.data) (by simp [String.data_append])
          (Or.inr ⟨'/', href.data, rfl, by decide⟩)
        rw [hout, hps]
        rfl

/-- An absolute href whose host differs from the base host is rejected. -/
theorem normalize_url_none_of_host_ne {url href : String} {bu hu : MUrl}
    (hb : MUrl.parse url = some bu) (hh : MUrl.parse href = some hu)
    (hne : hu.host ≠ bu.host) : normalize_url url href = some none := by
  have ha := parse_some_not_hash hh
  have hcond : (hu.has_host && decide (hu.host = bu.host)) = false := by
    rw [decide_eq_false hne, Bool.and_false]
  simp only [normalize_url, ha, Bool.false_eq_true, if_false, hb, hh, hcond]

/-- A `Some` result on an absolute href forces host agreement with the base
and returns the href's own serialization. -/
theorem normalize_url_some_host_eq {url href out : String} {bu hu : MUrl}
    (hb : MUrl.parse url = some bu) (hh : MUrl.parse href = some hu)
    (hn : normalize_url url href = some (some out)) :
    hu.has_host = true ∧ hu.host = bu.host ∧ out = hu.toString := by
  have ha := parse_some_not_hash hh
  simp only [normalize_url, ha, Bool.false_eq_true, if_false, hb, hh] at hn
  split at hn
  · next hcond =>
    rw [Bool.and_eq_true] at hcond
    exact ⟨hcond.1, of_decide_eq_true hcond.2, by simpa using hn.symm⟩
  · simp at hn

theorem collectLinks_ne_none {url : String} {bu : MUrl} {d : String}
    (hb : MUrl.parse url = some bu) (hd : bu.domain = some d) :
    ∀ hs : List String, collectLinks url hs ≠ none := by
  intro hs
  induction hs with
  | nil => simp [collectLinks]
  | cons h t ih =>
    unfold collectLinks
    cases hn : normalize_url url h with
    | none => exact absurd hn (normalize_url_ne_none hb hd h)
    | some o =>
      cases o with
      | none => simpa using ih
      | some s =>
        cases hct : collectLinks url t with
        | none => exact absurd hct ih
        | some l => simp [hct]

theorem collectLinks_mem {url : String} :
    ∀ {hs ls : List String}, collectLinks url hs = some ls →
      ∀ s ∈ ls, ∃ href ∈ hs, normalize_url url href = some (some s) := by
  intro hs
  induction hs with
  | nil =>
    intro ls hc s hm
    simp only [collectLinks, Option.some.injEq] at hc
    subst hc
    simp at hm
  | cons h t ih =>
    intro ls hc s hm
    unfold collectLinks at hc
    cases hn : normalize_url url h with
    | none => rw [hn] at hc; cases hc
    | some o =>
      rw [hn] at hc
      cases o with
      | none =>
        obtain ⟨href, hhm, hnorm⟩ := ih hc s hm
        exact ⟨href, List.mem_cons_of_mem _ hhm, hnorm⟩
      | some s0 =>
        rcases Option.map_eq_some'.1 hc with ⟨ls', hct, rfl⟩
        rcases List.mem_cons.1 hm with rfl | hm
        · exact ⟨h, List.mem_cons_self _ _, hn⟩
        · obtain ⟨href, hhm, hnorm⟩ := ih hct s hm
          exact ⟨href, List.mem_cons_of_mem _ hhm, hnorm⟩

theorem get_links_ne_none {url : String} {bu : MUrl} {d : String}
    (hb : MUrl.parse url = some bu) (hd : bu.domain = some d)
    (hrefsOf : String → List String) (html : String) :
    get_links_from_raw_html hrefsOf url html ≠ none := by
  unfold get_links_from_raw_html
  cases hc : collectLinks url (hrefsOf html) with
  | none => exact absurd hc (collectLinks_ne_none hb hd _)
  | some l => simp

theorem get_links_mem {hrefsOf : String → List String} {url html : String}
    {pl : Finset String} (hg : get_links_from_raw_html hrefsOf url html = some pl)
    {s : String} (hm : s ∈ pl) :
    ∃ href ∈ hrefsOf html, normalize_url url href = some (some s) := by
  unfold get_links_from_raw_html at hg
  rcases Option.map_eq_some'.1 hg with ⟨L, hc, rfl⟩
  exact collectLinks_mem hc s (List.mem_toFinset.1 hm)

/-! ## Crawl-loop lemmas -/

theorem processUrl_fetch_none {fetch : String → Option (Nat × String)}
    {hrefsOf : String → List String} {st : CrawlState} {url : String}
    (hf : fetch url = none) :
    processUrl fetch hrefsOf st url = .abort { st with fetched := st.fetched ++ [url] } := by
  simp [processUrl, check_url, hf]

theorem processUrl_links_none {fetch : String → Option (Nat × String)}
    {hrefsOf : String → List String} {st : CrawlState} {url : String}
    {status : Nat} {html : String}
    (hf : fetch url = some (status, html))
    (hg : get_links_from_raw_html hrefsOf url html = none) :
    processUrl fetch hrefsOf st url =
      .crashed { st with visited := insert url st.visited,
                         fetched := st.fetched ++ [url] } := by
  simp [processUrl, check_url, hf, hg]

theorem processUrl_links_some {fetch : String → Option (Nat × String)}
    {hrefsOf : String → List String} {st : CrawlState} {url : String}
    {status : Nat} {html : String} {pl : Finset String}
    (hf : fetch url = some (status, html))
    (hg : get_links_from_raw_html hrefsOf url html = some pl) :
    processUrl fetch hrefsOf st url =
      .cont { visited := insert url st.visited
            , broken_link := if status = 200 then st.broken_link
                             else insert url st.broken_link
            , to_visit := pl \ insert url st.visited
            , fetched := st.fetched ++ [url] } := by
  by_cases hs : status = 200 <;> simp [processUrl, check_url, hf, hg, hs]

/-- Inversion: what a successful loop iteration must look like. -/
theorem processUrl_cont {fetch : String → Option (Nat × String)}
    {hrefsOf : String → List String} {st st₁ : CrawlState} {url : String}
    (h : processUrl fetch hrefsOf st url = .cont st₁) :
    st₁.visited = insert url st.visited ∧ st₁.fetched = st.fetched ++ [url] ∧
      ∃ status html pl, fetch url = some (status, html) ∧
        get_links_from_raw_html hrefsOf url html = some pl ∧
        st₁.to_visit = pl \ insert url st.visited ∧
        st₁.broken_link = (if status = 200 then st.broken_link
                           else insert url st.broken_link) := by
  cases hf : fetch url with
  | none => rw [processUrl_fetch_none hf] at h; cases h
  | some sb =>
    obtain ⟨status, html⟩ := sb
    cases hg : get_links_from_raw_html hrefsOf url html with
    | none => rw [processUrl_links_none hf hg] at h; cases h
    | some pl =>
      rw [processUrl_links_some hf hg] at h
      cases h
      exact ⟨rfl, rfl, status, html, pl, rfl, hg, rfl, rfl⟩

/-! ### C4 machinery: the fetch log never repeats a URL -/

theorem fetched_append_nodup {st : CrawlState} {url : String}
    (hinv : InvC4 st) (hnv : url ∉ st.visited) :
    (st.fetched ++ [url]).Nodup := by
  have hnf : url ∉ st.fetched := fun hmem =>
    hnv (hinv.2.1 ▸ List.mem_toFinset.2 hmem)
  refine List.nodup_append.2 ⟨hinv.1, List.nodup_singleton url, ?_⟩
  intro a ha hb
  rw [List.mem_singleton] at hb
  subst hb
  exact hnf ha

theorem processUrl_c4_cont {fetch : String → Option (Nat × String)}
    {hrefsOf : String → List String} {st st₁ : CrawlState} {url : String}
    (h : processUrl fetch hrefsOf st url = .cont st₁)
    (hinv : InvC4 st) (hnv : url ∉ st.visited) :
    InvC4 st₁ ∧ st₁.visited = insert url st.visited := by
  obtain ⟨hv, hf, status, html, pl, _, _, ht, _⟩ := processUrl_cont h
  refine ⟨⟨?_, ?_, ?_⟩, hv⟩
  · rw [hf]; exact fetched_append_nodup hinv hnv
  · rw [hf, hv, List.toFinset_append, hinv.2.1]
    simp [Finset.insert_eq, Finset.union_comm]
  · rw [ht, hv]
    exact Finset.sdiff_disjoint

theorem processUrl_c4_stop {fetch : String → Option (Nat × String)}
    {hrefsOf : String → List String} {st st₁ : CrawlState} {url : String}
    (h : processUrl fetch hrefsOf st url = .abort st₁ ∨
         processUrl fetch hrefsOf st url = .crashed st₁)
    (hinv : InvC4 st) (hnv : url ∉ st.visited) :
    st₁.fetched.Nodup := by
  cases hf : fetch url with
  | none =>
    rcases h with h | h <;> rw [processUrl_fetch_none hf] at h <;> cases h
    exact fetched_append_nodup hinv hnv
  | some sb =>
    obtain ⟨status, html⟩ := sb
    cases hg : get_links_from_raw_html hrefsOf url html with
    | none =>
      rcases h with h | h <;> rw [processUrl_links_none hf hg] at h <;> cases h
      exact fetched_append_nodup hinv hnv
    | some pl =>
      rcases h with h | h <;> rw [processUrl_links_some hf hg] at h <;> cases h

theorem processRound_c4 {fetch : String → Option (Nat × String)}
    {hrefsOf : String → List String} :
    ∀ (l : List String) (st : CrawlState), InvC4 st → l.Nodup →
      (∀ x ∈ l, x ∉ st.visited) →
      (∀ st', processRound fetch hrefsOf st l = .cont st' → InvC4 st') ∧
      (∀ st', processRound fetch hrefsOf st l = .abort st' ∨
              processRound fetch hrefsOf st l = .crashed st' →
        st'.fetched.Nodup) := by
  intro l
  induction l with
  | nil =>
    intro st hinv _ _
    constructor
    · intro st' h
      rw [processRound] at h
      cases h
      exact hinv
    · intro st' h
      rcases h with h | h <;> rw [processRound] at h <;> cases h
  | cons u rest ih =>
    intro st hinv hnd hnm
    have hnvu : u ∉ st.visited := hnm u (List.mem_cons_self _ _)
    cases hpu : processUrl fetch hrefsOf st u with
    | cont st₁ =>
      obtain ⟨hinv₁, hv₁⟩ := processUrl_c4_cont hpu hinv hnvu
      have hrest : ∀ x ∈ rest, x ∉ st₁.visited := by
        intro x hx
        rw [hv₁, Finset.mem_insert]
        push_neg
        exact ⟨fun hEq => (List.nodup_cons.1 hnd).1 (hEq ▸ hx),
          hnm x (List.mem_cons_of_mem _ hx)⟩
      have := ih st₁ hinv₁ (List.nodup_cons.1 hnd).2 hrest
      constructor
      · intro st' h
        rw [processRound, hpu] at h
        exact this.1 st' h
      · intro st' h
        rw [processRound, hpu] at h
        exact this.2 st' h
    | abort st₁ =>
      constructor
      · intro st' h
        rw [processRound, hpu] at h
        cases h
      · intro st' h
        rcases h with h | h <;> rw [processRound, hpu] at h <;> cases h
        exact processUrl_c4_stop (Or.inl hpu) hinv hnvu
    | crashed st₁ =>
      constructor
      · intro st' h
        rw [processRound, hpu] at h
        cases h
      · intro st' h
        rcases h with h | h <;> rw [processRound, hpu] at h <;> cases h
        exact processUrl_c4_stop (Or.inr hpu) hinv hnvu

theorem crawl_c4 {fetch : String → Option (Nat × String)}
    {hrefsOf : String → List String} {ord : Finset String → List String}
    (hord : validOrd ord) :
    ∀ (fuel : Nat) (st : CrawlState), InvC4 st →
      (crawl fetch hrefsOf ord fuel st).state.fetched.Nodup ∧
      ∀ st', (crawl fetch hrefsOf ord fuel st = .ok st' ∨
              crawl fetch hrefsOf ord fuel st = .outOfFuel st') →
        Disjoint st'.to_visit st'.visited := by
  intro fuel
  induction fuel with
  | zero =>
    intro st hinv
    constructor
    · rw [crawl]
      split <;> exact hinv.1
    · intro st' h
      have hst : st' = st := by
        rcases h with h | h <;> rw [crawl] at h <;> split at h <;> cases h <;> rfl
      rw [hst]
      exact hinv.2.2
  | succ n ih =>
    intro st hinv
    by_cases hemp : st.to_visit = ∅
    · rw [crawl, if_pos hemp]
      exact ⟨hinv.1, fun st' h => by
        rcases h with h | h <;> cases h
        exact hinv.2.2⟩
    · have hmem : ∀ x ∈ ord st.to_visit, x ∉ st.visited := by
        intro x hx
        have hx' : x ∈ st.to_visit := by
          rw [← (hord st.to_visit).2]
          exact List.mem_toFinset.2 hx
        exact Finset.disjoint_left.1 hinv.2.2 hx'
      have hround := @processRound_c4 fetch hrefsOf
        (ord st.to_visit) st hinv (hord st.to_visit).1 hmem
      cases hpr : processRound fetch hrefsOf st (ord st.to_visit) with
      | cont st₁ =>
        rw [crawl, if_neg hemp, hpr]
        exact ih st₁ (hround.1 st₁ hpr)
      | abort st₁ =>
        rw [crawl, if_neg hemp, hpr]
        exact ⟨hround.2 st₁ (Or.inl hpr), fun st' h => by
          rcases h with h | h <;> cases h⟩
      | crashed st₁ =>
        rw [crawl, if_neg hemp, hpr]
        exact ⟨hround.2 st₁ (Or.inr hpr), fun st' h => by
          rcases h with h | h <;> cases h⟩

/-! ### C5 machinery: each round strictly grows `visited` inside the URL
universe, so `U.card` rounds suffice -/

theorem processRound_c5_cont {fetch : String → Option (Nat × String)}
    {hrefsOf : String → List String} {U : Finset String}
    (hclosed : ∀ url ∈ U, ∀ s b, fetch url = some (s, b) →
       ∀ ls, get_links_from_raw_html hrefsOf url b = some ls → ls ⊆ U) :
    ∀ (l : List String) (st st' : CrawlState),
      processRound fetch hrefsOf st l = .cont st' →
      (∀ x ∈ l, x ∈ U ∧ x ∉ st.visited) → l.Nodup → st.visited ⊆ U →
      st'.visited = st.visited ∪ l.toFinset ∧ st'.visited ⊆ U ∧
        (l ≠ [] → st'.to_visit ⊆ U ∧ Disjoint st'.to_visit st'.visited) := by
  intro l
  induction l with
  | nil =>
    intro st st' heq _ _ hvU
    rw [processRound] at heq
    cases heq
    exact ⟨by simp, hvU, fun hne => absurd rfl hne⟩
  | cons u rest ih =>
    intro st st' heq hxl hnd hvU
    have huU : u ∈ U := (hxl u (List.mem_cons_self _ _)).1
    cases hpu : processUrl fetch hrefsOf st u with
    | abort st₁ => rw [processRound, hpu] at heq; cases heq
    | crashed st₁ => rw [processRound, hpu] at heq; cases heq
    | cont st₁ =>
      simp only [processRound, hpu] at heq
      obtain ⟨hv₁, _, status, html, pl, hf, hg, ht₁, _⟩ := processUrl_cont hpu
      have hv₁U : st₁.visited ⊆ U := by
        rw [hv₁]
        exact Finset.insert_subset huU hvU
      have hplU : pl ⊆ U := hclosed u huU status html hf pl hg
      cases rest with
      | nil =>
        rw [processRound] at heq
        cases heq
        refine ⟨?_, hv₁U, fun _ => ⟨?_, ?_⟩⟩
        · rw [hv₁]
          ext x
          simp [Finset.insert_eq, Finset.union_comm]
        · rw [ht₁]
          exact (Finset.sdiff_subset).trans hplU
        · rw [ht₁, hv₁]
          exact Finset.sdiff_disjoint
      | cons v rest' =>
        have hxl₁ : ∀ x ∈ v :: rest', x ∈ U ∧ x ∉ st₁.visited := by
          intro x hx
          refine ⟨(hxl x (List.mem_cons_of_mem _ hx)).1, ?_⟩
          rw [hv₁, Finset.mem_insert]
          push_neg
          exact ⟨fun hEq => (List.nodup_cons.1 hnd).1 (hEq ▸ hx),
            (hxl x (List.mem_cons_of_mem _ hx)).2⟩
        obtain ⟨hvis, hvisU, hrest⟩ :=
          ih st₁ st' heq hxl₁ (List.nodup_cons.1 hnd).2 hv₁U
        refine ⟨?_, hvisU, fun _ => hrest (by simp)⟩
        rw [hvis, hv₁]
        ext x
        simp [Finset.insert_eq]
        tauto

theorem crawl_c5 {fetch : String → Option (Nat × String)}
    {hrefsOf : String → List String} {ord : Finset String → List String}
    {U : Finset String} (hord : validOrd ord)
    (hclosed : ∀ url ∈ U, ∀ s b, fetch url = some (s, b) →
       ∀ ls, get_links_from_raw_html hrefsOf url b = some ls → ls ⊆ U) :
    ∀ (fuel : Nat) (st : CrawlState), st.to_visit ⊆ U → st.visited ⊆ U →
      Disjoint st.to_visit st.visited → (U \ st.visited).card ≤ fuel →
      ∀ st', crawl fetch hrefsOf ord fuel st ≠ .outOfFuel st' := by
  intro fuel
  induction fuel with
  | zero =>
    intro st htU hvU hdis hcard st' h
    rw [crawl] at h
    split at h
    · cases h
    · next hemp =>
      obtain ⟨x, hx⟩ := Finset.nonempty_iff_ne_empty.2 hemp
      have hxU : x ∈ U := htU hx
      have hxnv : x ∉ st.visited := Finset.disjoint_left.1 hdis hx
      have : x ∈ U \ st.visited := Finset.mem_sdiff.2 ⟨hxU, hxnv⟩
      rw [Nat.le_zero, Finset.card_eq_zero] at hcard
      rw [hcard] at this
      simp at this
  | succ n ih =>
    intro st htU hvU hdis hcard st' h
    by_cases hemp : st.to_visit = ∅
    · rw [crawl, if_pos hemp] at h
      cases h
    · have hlset := (hord st.to_visit).2
      have hxl : ∀ x ∈ ord st.to_visit, x ∈ U ∧ x ∉ st.visited := by
        intro x hx
        have hx' : x ∈ st.to_visit := by
          rw [← hlset]; exact List.mem_toFinset.2 hx
        exact ⟨htU hx', Finset.disjoint_left.1 hdis hx'⟩
      cases hpr : processRound fetch hrefsOf st (ord st.to_visit) with
      | abort st₁ => rw [crawl, if_neg hemp, hpr] at h; cases h
      | crashed st₁ => rw [crawl, if_neg hemp, hpr] at h; cases h
      | cont st₁ =>
        rw [crawl, if_neg hemp, hpr] at h
        have hlne : ord st.to_visit ≠ [] := by
          intro hnil
          rw [hnil] at hlset
          exact hemp (by simpa using hlset.symm)
        obtain ⟨hvis, hvisU, hrest⟩ := processRound_c5_cont hclosed
          (ord st.to_visit) st st₁ hpr hxl (hord st.to_visit).1 hvU
        obtain ⟨ht₁U, hdis₁⟩ := hrest hlne
        have hvis' : st₁.visited = st.visited ∪ st.to_visit := by
          rw [hvis, hlset]
        have hsub : U \ st₁.visited ⊆ U \ st.visited := by
          intro x hx
          rw [Finset.mem_sdiff] at hx ⊢
          exact ⟨hx.1, fun hv => hx.2 (by rw [hvis']; exact Finset.mem_union_left _ hv)⟩
        have hssub : U \ st₁.visited ⊂ U \ st.visited := by
          refine ⟨hsub, fun hback => ?_⟩
          obtain ⟨x, hx⟩ := Finset.nonempty_iff_ne_empty.2 hemp
          have hx1 : x ∈ U \ st.visited :=
            Finset.mem_sdiff.2 ⟨htU hx, Finset.disjoint_left.1 hdis hx⟩
          have hx2 : x ∈ U \ st₁.visited := hback hx1
          rw [Finset.mem_sdiff, hvis'] at hx2
          exact hx2.2 (Finset.mem_union_right _ hx)
        have hcard₁ : (U \ st₁.visited).card ≤ n := by
          have := Finset.card_lt_card hssub
          omega
        exact ih st₁ ht₁U hvisU hdis₁ hcard₁ st' h

/-! ### C6 machinery: every URL the engine ever touches parses with the
seed's host -/

theorem processUrl_hostOk {fetch : String → Option (Nat × String)}
    {hrefsOf : String → List String} {h : String} {st st₁ : CrawlState}
    {url : String} (hip : isIPHost h = false)
    (hinv : InvHost h st) (hurl : hostOk h url)
    (heq : processUrl fetch hrefsOf st url = .cont st₁ ∨
           processUrl fetch hrefsOf st url = .abort st₁ ∨
           processUrl fetch hrefsOf st url = .crashed st₁) :
    InvHost h st₁ := by
  obtain ⟨bu, hb, hh⟩ : ∃ bu, MUrl.parse url = some bu ∧ bu.host = some h := by
    unfold hostOk at hurl
    cases hp : MUrl.parse url with
    | none => rw [hp] at hurl; cases hurl
    | some bu =>
      rw [hp] at hurl
      exact ⟨bu, rfl, hurl⟩
  have hvis : ∀ x ∈ insert url st.visited, hostOk h x := by
    intro x hx
    rcases Finset.mem_insert.1 hx with rfl | hx
    · exact hurl
    · exact hinv.2.1 x hx
  cases hf : fetch url with
  | none =>
    rw [processUrl_fetch_none hf] at heq
    rcases heq with heq | heq | heq <;> cases heq
    exact ⟨hinv.1, hinv.2.1, hinv.2.2.1, fun x hx => by
      rcases List.mem_append.1 hx with hx | hx
      · exact hinv.2.2.2 x hx
      · rw [List.mem_singleton] at hx
        exact hx ▸ hurl⟩
  | some sb =>
    obtain ⟨status, html⟩ := sb
    have hfetched : ∀ x ∈ st.fetched ++ [url], hostOk h x := by
      intro x hx
      rcases List.mem_append.1 hx with hx | hx
      · exact hinv.2.2.2 x hx
      · rw [List.mem_singleton] at hx
        exact hx ▸ hurl
    cases hg : get_links_from_raw_html hrefsOf url html with
    | none =>
      rw [processUrl_links_none hf hg] at heq
      rcases heq with heq | heq | heq <;> cases heq
      exact ⟨hinv.1, hvis, hinv.2.2.1, hfetched⟩
    | some pl =>
      rw [processUrl_links_some hf hg] at heq
      rcases heq with heq | heq | heq <;> cases heq
      refine ⟨?_, hvis, ?_, hfetched⟩
      · intro x hx
        have hxpl : x ∈ pl := (Finset.mem_sdiff.1 hx).1
        obtain ⟨href, _, hnorm⟩ := get_links_mem hg hxpl
        exact normalize_url_host hb hh hip hnorm
      · intro x hx
        by_cases hs : status = 200
        · rw [if_pos hs] at hx
          exact hinv.2.2.1 x hx
        · rw [if_neg hs] at hx
          rcases Finset.mem_insert.1 hx with rfl | hx
          · exact hurl
          · exact hinv.2.2.1 x hx

theorem processRound_hostOk {fetch : String → Option (Nat × String)}
    {hrefsOf : String → List String} {h : String} (hip : isIPHost h = false) :
    ∀ (l : List String) (st st₁ : CrawlState), InvHost h st →
      (∀ x ∈ l, hostOk h x) →
      (processRound fetch hrefsOf st l = .cont st₁ ∨
       processRound fetch hrefsOf st l = .abort st₁ ∨
       processRound fetch hrefsOf st l = .crashed st₁) →
      InvHost h st₁ := by
  intro l
  induction l with
  | nil =>
    intro st st₁ hinv _ heq
    rcases heq with heq | heq | heq <;> rw [processRound] at heq <;> cases heq
    exact hinv
  | cons u rest ih =>
    intro st st₁ hinv hl heq
    have hu : hostOk h u := hl u (List.mem_cons_self _ _)
    cases hpu : processUrl fetch hrefsOf st u with
    | cont st₂ =>
      have hinv₂ := processUrl_hostOk hip hinv hu (Or.inl hpu)
      rcases heq with heq | heq | heq <;> rw [processRound, hpu] at heq <;>
        [exact ih st₂ st₁ hinv₂ (fun x hx => hl x (List.mem_cons_of_mem _ hx)) (Or.inl heq);
         exact ih st₂ st₁ hinv₂ (fun x hx => hl x (List.mem_cons_of_mem _ hx)) (Or.inr (Or.inl heq));
         exact ih st₂ st₁ hinv₂ (fun x hx => hl x (List.mem_cons_of_mem _ hx)) (Or.inr (Or.inr heq))]
    | abort st₂ =>
      have hinv₂ := processUrl_hostOk hip hinv hu (Or.inr (Or.inl hpu))
      rcases heq with heq | heq | heq <;> rw [processRound, hpu] at heq <;> cases heq
      exact hinv₂
    | crashed st₂ =>
      have hinv₂ := processUrl_hostOk hip hinv hu (Or.inr (Or.inr hpu))
      rcases heq with heq | heq | heq <;> rw [processRound, hpu] at heq <;> cases heq
      exact hinv₂

theorem crawl_hostOk {fetch : String → Option (Nat × String)}
    {hrefsOf : String → List String} {ord : Finset String → List String}
    {h : String} (hord : validOrd ord) (hip : isIPHost h = false) :
    ∀ (fuel : Nat) (st : CrawlState), InvHost h st →
      InvHost h (crawl fetch hrefsOf ord fuel st).state := by
  intro fuel
  induction fuel with
  | zero =>
    intro st hinv
    rw [crawl]
    split <;> exact hinv
  | succ n ih =>
    intro st hinv
    by_cases hemp : st.to_visit = ∅
    · rw [crawl, if_pos hemp]
      exact hinv
    · have hl : ∀ x ∈ ord st.to_visit, hostOk h x := by
        intro x hx
        refine hinv.1 x ?_
        rw [← (hord st.to_visit).2]
        exact List.mem_toFinset.2 hx
      cases hpr : processRound fetch hrefsOf st (ord st.to_visit) with
      | cont st₁ =>
        rw [crawl, if_neg hemp, hpr]
        exact ih st₁ (processRound_hostOk hip _ st st₁ hinv hl (Or.inl hpr))
      | abort st₁ =>
        rw [crawl, if_neg hemp, hpr]
        exact processRound_hostOk hip _ st st₁ hinv hl (Or.inr (Or.inl hpr))
      | crashed st₁ =>
        rw [crawl, if_neg hemp, hpr]
        exact processRound_hostOk hip _ st st₁ hinv hl (Or.inr (Or.inr hpr))

/-! ## Shared helpers for the claim theorems -/

theorem sortOrd_valid : validOrd sortOrd := by
  intro s
  obtain ⟨val, hnd⟩ := s
  induction val using Quotient.inductionOn with
  | h l =>
    constructor
    · exact ((List.perm_insertionSort (· ≤ ·) l).nodup_iff).2 hnd
    · ext x
      rw [List.mem_toFinset]
      show x ∈ List.insertionSort (· ≤ ·) l ↔ _
      rw [(List.perm_insertionSort (· ≤ ·) l).mem_iff]
      simp [Finset.mem_mk]

theorem domain_some {u : MUrl} {d : String} (hd : u.domain = some d) :
    u.host = some d ∧ isIPHost d = false := by
  unfold MUrl.domain at hd
  cases hh : u.host with
  | none => rw [hh] at hd; cases hd
  | some h0 =>
    rw [hh] at hd
    simp only [Option.some_bind] at hd
    by_cases hip : isIPHost h0 = true
    · rw [if_pos hip] at hd; cases hd
    · rw [if_neg hip] at hd
      obtain rfl : h0 = d := Option.some.inj hd
      exact ⟨rfl, by simpa using hip⟩

/-! ## Claim theorems -/

/-- C1: the claim says a transport-level fetch failure is recovered locally —
the URL joins Broken and Visited and the run continues; for a failing seed it
expects `Visited = Broken = {seed}` and a normal completion.  The code instead
propagates the `reqwest` error with `?` out of `main` (src/main.rs line 91):
the run aborts as `Err(_)`, and the seed ends up in neither Visited nor
Broken.  This theorem evaluates the loop at that failing input. -/
theorem c1_seed_transport_error_aborts :
    crawl (fun _ => none) (fun _ => []) sortOrd 1 (initState "http://a/")
      = .err { visited := ∅, broken_link := ∅, to_visit := {"http://a/"},
               fetched := ["http://a/"] } := by rfl

/-- C2 counterexample: a 404 seed whose body links to `/b`.  The run ends
with the seed in Broken yet `http://a/b` fetched and visited — the link was
discovered inside the broken page's body and did enter the next frontier,
contradicting the claim that a broken page's body is not parsed. -/
theorem c2_broken_page_links_enter_frontier :
    crawl
        (fun u => if u = "http://a/" then some (404, "A")
                  else if u = "http://a/b" then some (200, "") else none)
        (fun html => if html = "A" then ["/b"] else [])
        sortOrd 2 (initState "http://a/")
      = .ok { visited := {"http://a/b", "http://a/"}, broken_link := {"http://a/"},
              to_visit := ∅, fetched := ["http://a/", "http://a/b"] } := by rfl

/-- C2 amended: a non-200 URL is added to the Broken-link set, but its body
IS parsed like any other: the links extracted from it (minus Visited) are
assigned to the frontier, src/main.rs lines 95–110. -/
theorem c2_nonsuccess_marked_broken_and_links_assigned
    (fetch : String → Option (Nat × String)) (hrefsOf : String → List String)
    (st : CrawlState) (url : String) (status : Nat) (html : String)
    (pl : Finset String)
    (hf : fetch url = some (status, html)) (hs : status ≠ 200)
    (hg : get_links_from_raw_html hrefsOf url html = some pl) :
    processUrl fetch hrefsOf st url =
      .cont { visited := insert url st.visited
            , broken_link := insert url st.broken_link
            , to_visit := pl \ insert url st.visited
            , fetched := st.fetched ++ [url] } := by
  rw [processUrl_links_some hf hg, if_neg hs]

/-- Witness for the amended C2 theorem at a concrete 404 page. -/
theorem c2_amended_witness :
    processUrl (fun u => if u = "http://a/" then some (404, "A") else none)
        (fun html => if html = "A" then ["/b"] else [])
        (initState "http://a/") "http://a/"
      = .cont { visited := {"http://a/"}, broken_link := {"http://a/"},
                to_visit := {"http://a/b"}, fetched := ["http://a/"] } := by
  have h := c2_nonsuccess_marked_broken_and_links_assigned
    (fun u => if u = "http://a/" then some (404, "A") else none)
    (fun html => if html = "A" then ["/b"] else [])
    (initState "http://a/") "http://a/" 404 "A" {"http://a/b"}
    (by rfl) (by decide) (by rfl)
  exact h

/-- C3: the claim says the next frontier is the union of the discoveries of
all URLs fetched in the round.  The code executes `to_visit = links;` inside
the `for` loop (src/main.rs line 110), so each iteration replaces the
frontier and only the last URL's discoveries survive.  Here the seed links to
`/b` and `/c`; page `/b` links to `/d`; the drain order processes `/b` first,
then `/c` — `/c`'s empty link set overwrites the frontier, and `/d`, although
discovered this round (second conjunct), is never fetched. -/
theorem c3_round_discoveries_overwritten :
    (crawl
        (fun u => if u = "http://a/" then some (200, "S")
                  else if u = "http://a/b" then some (200, "A")
                  else if u = "http://a/c" then some (200, "B")
                  else if u = "http://a/d" then some (200, "D") else none)
        (fun html => if html = "S" then ["/b", "/c"]
                     else if html = "A" then ["/d"] else [])
        (fun s => if s = {"http://a/b", "http://a/c"}
                  then ["http://a/b", "http://a/c"] else sortOrd s)
        3 (initState "http://a/")
      = .ok { visited := {"http://a/c", "http://a/b", "http://a/"},
              broken_link := ∅, to_visit := ∅,
              fetched := ["http://a/", "http://a/b", "http://a/c"] }) ∧
    get_links_from_raw_html
        (fun html => if html = "S" then ["/b", "/c"]
                     else if html = "A" then ["/d"] else [])
        "http://a/b" "A" = some {"http://a/d"} := by
  exact ⟨by rfl, by rfl⟩

/-- C4: no URL is ever fetched twice — the fetch log of any outcome (at any
round boundary, via the fuel index) has no duplicates — and at every round
boundary the about-to-be-fetched frontier is disjoint from Visited. -/
theorem c4_no_url_fetched_twice
    (fetch : String → Option (Nat × String)) (hrefsOf : String → List String)
    (ord : Finset String → List String) (seed : String)
    (hord : validOrd ord) (fuel : Nat) :
    (crawl fetch hrefsOf ord fuel (initState seed)).state.fetched.Nodup ∧
    ∀ st', (crawl fetch hrefsOf ord fuel (initState seed) = .ok st' ∨
            crawl fetch hrefsOf ord fuel (initState seed) = .outOfFuel st') →
      Disjoint st'.to_visit st'.visited := by
  apply crawl_c4 hord
  exact ⟨List.nodup_nil, by simp [initState], by simp [initState]⟩

/-- Witness for C4 on a one-page host. -/
theorem c4_witness :
    (crawl (fun _ => some (200, "")) (fun _ => []) sortOrd 1
      (initState "http://a/")).state.fetched.Nodup :=
  (c4_no_url_fetched_twice _ _ sortOrd "http://a/" sortOrd_valid 1).1

/-- C5: on a universe `U` of canonical URLs that contains the seed and is
closed under link extraction, the loop finishes within `U.card` rounds: run
with fuel `U.card` it never reports `outOfFuel` (each round fetches at least
one unvisited URL of `U`, because candidates are filtered through
Visited-subtraction and Visited only grows). -/
theorem c5_terminates_within_reachable_card
    (fetch : String → Option (Nat × String)) (hrefsOf : String → List String)
    (ord : Finset String → List String) (U : Finset String) (seed : String)
    (hord : validOrd ord) (hseed : seed ∈ U)
    (hclosed : ∀ url ∈ U, ∀ s b, fetch url = some (s, b) →
       ∀ ls, get_links_from_raw_html hrefsOf url b = some ls → ls ⊆ U) :
    ∀ st', crawl fetch hrefsOf ord U.card (initState seed) ≠ .outOfFuel st' := by
  apply crawl_c5 hord hclosed
  · intro x hx
    have : x = seed := by simpa [initState] using hx
    rw [this]; exact hseed
  · intro x hx
    simp [initState] at hx
  · simp [initState]
  · simp [initState]

/-- Witness for C5 on a one-page universe. -/
theorem c5_witness :
    crawl (fun _ => none) (fun _ => []) sortOrd
        ({"http://a/"} : Finset String).card (initState "http://a/")
      ≠ RunOutcome.outOfFuel (initState "http://a/") :=
  c5_terminates_within_reachable_card _ _ sortOrd {"http://a/"} "http://a/"
    sortOrd_valid (by decide) (fun url _ s b hf => by simp at hf)
    (initState "http://a/")

/-- C6: an absolute href is kept only when its host equals the base host
(first two conjuncts: hosts differ forces `None`, and a `Some` result forces
host agreement), and consequently, whatever the fetch results and page
contents, a URL that does not parse with the seed's host is never fetched and
never appears in Visited or Broken (third conjunct). -/
theorem c6_cross_host_never_crawled :
    (∀ (url href : String) (bu hu : MUrl), MUrl.parse url = some bu →
       MUrl.parse href = some hu → hu.host ≠ bu.host →
       normalize_url url href = some none) ∧
    (∀ (url href out : String) (bu hu : MUrl), MUrl.parse url = some bu →
       MUrl.parse href = some hu → normalize_url url href = some (some out) →
       hu.host = bu.host) ∧
    (∀ (fetch : String → Option (Nat × String)) (hrefsOf : String → List String)
       (ord : Finset String → List String) (fuel : Nat) (seed h t : String),
       validOrd ord → hostOk h seed → isIPHost h = false →
       (MUrl.parse t).bind MUrl.host ≠ some h →
       t ∉ (crawl fetch hrefsOf ord fuel (initState seed)).state.visited ∧
       t ∉ (crawl fetch hrefsOf ord fuel (initState seed)).state.broken_link ∧
       t ∉ (crawl fetch hrefsOf ord fuel (initState seed)).state.fetched) := by
  refine ⟨?_, ?_, ?_⟩
  · intro url href bu hu hb hh hne
    exact normalize_url_none_of_host_ne hb hh hne
  · intro url href out bu hu hb hh hn
    exact (normalize_url_some_host_eq hb hh hn).2.1
  · intro fetch hrefsOf ord fuel seed h t hord hseed hip ht
    have hinit : InvHost h (initState seed) := by
      refine ⟨?_, ?_, ?_, ?_⟩
      · intro x hx
        have hxs : x = seed := by simpa [initState] using hx
        rw [hxs]; exact hseed
      · intro x hx; simp [initState] at hx
      · intro x hx; simp [initState] at hx
      · intro x hx; simp [initState] at hx
    have hinv := @crawl_hostOk fetch hrefsOf ord h
      hord hip fuel (initState seed) hinit
    exact ⟨fun hm => ht (hinv.2.1 t hm), fun hm => ht (hinv.2.2.1 t hm),
      fun hm => ht (hinv.2.2.2 t hm)⟩

/-- Witness for C6: a cross-host link is rejected by the normalizer and a
cross-host URL is not visited in a concrete run whose pages all name it. -/
theorem c6_witness :
    normalize_url "http://a/" "http://b/x" = some none ∧
    "http://b/x" ∉ (crawl (fun _ => some (200, ""))
        (fun _ => ["http://b/x"]) sortOrd 1
        (initState "http://a/")).state.visited := by
  refine ⟨?_, ?_⟩
  · exact c6_cross_host_never_crawled.1 "http://a/" "http://b/x"
      ⟨"http", some "a", none, "/"⟩ ⟨"http", some "b", none, "/x"⟩
      (by decide) (by decide) (by decide)
  · exact (c6_cross_host_never_crawled.2.2 _ _ sortOrd 1 "http://a/" "a"
      "http://b/x" sortOrd_valid (by decide) (by decide) (by decide)).1

/-- C7: a non-anchor href that does not parse as absolute is joined flat
against the domain root: with a leading `/` the result is exactly
`scheme://domain ++ href`; otherwise exactly `scheme://domain/ ++ href` —
never resolved against the current page's directory. -/
theorem c7_relative_href_flat_join
    (url href : String) (bu : MUrl) (d : String)
    (hb : MUrl.parse url = some bu) (hd : bu.domain = some d)
    (hanchor : startsWithChar '#' href = false)
    (habs : MUrl.parse href = none) :
    (startsWithChar '/' href = true →
      normalize_url url href = some (some (bu.scheme ++ "://" ++ d ++ href))) ∧
    (startsWithChar '/' href = false →
      normalize_url url href =
        some (some (bu.scheme ++ "://" ++ d ++ "/" ++ href))) := by
  refine ⟨fun hsl => ?_, fun hsl => ?_⟩
  · simp only [normalize_url, hanchor, Bool.false_eq_true, if_false, hb, habs,
      hd, hsl, if_true]
  · simp only [normalize_url, hanchor, Bool.false_eq_true, if_false, hb, habs,
      hd, hsl]

/-- Witness for C7 with base `https://example.com/anything`: an
absolute-path href and a relative one. -/
theorem c7_witness :
    normalize_url "https://example.com/anything" "/x"
      = some (some "https://example.com/x") ∧
    normalize_url "https://example.com/anything" "y.html"
      = some (some "https://example.com/y.html") := by
  have h1 := c7_relative_href_flat_join "https://example.com/anything" "/x"
    ⟨"https", some "example.com", none, "/anything"⟩ "example.com"
    (by decide) (by decide) (by decide) (by decide)
  have h2 := c7_relative_href_flat_join "https://example.com/anything" "y.html"
    ⟨"https", some "example.com", none, "/anything"⟩ "example.com"
    (by decide) (by decide) (by decide) (by decide)
  exact ⟨h1.1 (by decide), h2.2 (by decide)⟩

/-- C8: a seed that does not parse makes `format_url` exit with status 1
before any crawl state exists, so `main` performs no fetch whatever the
network would answer: the run result is `configError` for every fetch
capability, extraction capability, drain order and fuel. -/
theorem c8_invalid_seed_config_error
    (arg : String) (hbad : MUrl.parse arg = none) :
    format_url arg = .exitOne ∧
    ∀ (fetch : String → Option (Nat × String)) (hrefsOf : String → List String)
      (ord : Finset String → List String) (fuel : Nat),
      mainRun fetch hrefsOf ord fuel arg = .configError := by
  have hfu : format_url arg = .exitOne := by
    simp [format_url, hbad]
  exact ⟨hfu, fun _ _ _ _ => by simp [mainRun, hfu]⟩

/-- Witness for C8 on a seed with no scheme. -/
theorem c8_witness :
    format_url "not-a-url" = FormatResult.exitOne ∧
    mainRun (fun _ => none) (fun _ => []) sortOrd 5 "not-a-url"
      = RunResult.configError := by
  have h := c8_invalid_seed_config_error "not-a-url" (by decide)
  exact ⟨h.1, h.2 _ _ _ _⟩

/-- C9: with an IP-address host, `domain()` is `None`, so `format_url`
panics on its `unwrap` (first conjunct) and `normalize_url` panics on the
relative-href branch (second conjunct); when the host is a DNS domain the
unwraps are safe: `format_url` returns `scheme://domain/` and
`normalize_url` never panics (third conjunct). -/
theorem c9_ip_host_domain_unwrap_panics :
    format_url "http://127.0.0.1/" = FormatResult.panicked ∧
    normalize_url "http://127.0.0.1/" "foo" = none ∧
    (∀ (url : String) (bu : MUrl) (d : String), MUrl.parse url = some bu →
       bu.domain = some d →
       format_url url = .ok (bu.scheme ++ "://" ++ d ++ "/") ∧
       ∀ href, normalize_url url href ≠ none) := by
  refine ⟨by decide, by decide, ?_⟩
  intro url bu d hb hd
  exact ⟨by simp [format_url, hb, hd], fun href => normalize_url_ne_none hb hd href⟩

/-- Witness for the domain-host conjunct of C9. -/
theorem c9_witness :
    format_url "http://a/" = FormatResult.ok "http://a/" ∧
    normalize_url "http://a/" "x" ≠ none := by
  have h := c9_ip_host_domain_unwrap_panics.2.2 "http://a/"
    ⟨"http", some "a", none, "/"⟩ "a" (by decide) (by decide)
  exact ⟨h.1, h.2 "x"⟩

/-- C10: a protocol-relative href `//host/path` does not parse as absolute
(first conjunct), so it falls into the leading-`/` branch: it is kept as
`scheme://domain//host/path` (second conjunct), a URL still scoped to the
base host (third conjunct) — the cross-host reference is crawled on the base
host rather than excluded. -/
theorem c10_protocol_relative_same_host
    (url rest : String) (bu : MUrl) (d : String)
    (hb : MUrl.parse url = some bu) (hd : bu.domain = some d) :
    MUrl.parse ("//" ++ rest) = none ∧
    normalize_url url ("//" ++ rest) =
      some (some (bu.scheme ++ "://" ++ d ++ ("//" ++ rest))) ∧
    (MUrl.parse (bu.scheme ++ "://" ++ d ++ ("//" ++ rest))).bind MUrl.host
      = some d := by
  obtain ⟨hh, hip⟩ := domain_some hd
  have hdata : ("//" ++ rest).data = '/' :: '/' :: rest.data := by
    simp [String.data_append]
  have hparse : MUrl.parse ("//" ++ rest) = none := by
    rw [MUrl.parse, hdata, parseChars, splitScheme, if_neg (by decide)]
    rfl
  have hanchor : startsWithChar '#' ("//" ++ rest) = false := by
    simp [startsWithChar, hdata]
  have hsl : startsWithChar '/' ("//" ++ rest) = true := by
    simp [startsWithChar, hdata]
  refine ⟨hparse, ?_, ?_⟩
  · simp only [normalize_url, hanchor, Bool.false_eq_true, if_false, hb,
      hparse, hd, hsl, if_true]
  · have hwf := parseChars_wf hb
    have hps := parse_of_data hwf hh
      (s := bu.scheme ++ "://" ++ d ++ ("//" ++ rest))
      (q := '/' :: '/' :: rest.data)
      (by simp [String.data_append, hdata])
      (Or.inr ⟨'/', '/' :: rest.data, rfl, by decide⟩)
    rw [hps]
    rfl

/-- Witness for C10. -/
theorem c10_witness :
    MUrl.parse "//b/x" = none ∧
    normalize_url "http://a/" "//b/x" = some (some "http://a//b/x") := by
  have h := c10_protocol_relative_same_host "http://a/" "b/x"
    ⟨"http", some "a", none, "/"⟩ "a" (by decide) (by decide)
  exact ⟨h.1, h.2.1⟩

end Fuze
